import Mathlib

/-
Verification of the qparser package: a shallow embedding of qparser.go
over lists of characters, together with theorems about the parsing
functions. Go strings are modelled as List Char, Go nil slices as
Option values (none = nil, some xs = a non-nil slice), and the two
fallible functions return Except values.
-/

set_option maxRecDepth 4000

namespace Qparser

/-- Go strings are modelled as lists of characters. -/
abbrev Str := List Char

/-- Conversion from Lean string literals to the Str model. -/
def s2l (s : String) : Str := s.data

/-- Embedding of the split helper (qparser.go): slices s into two substrings
separated by the first occurrence of sep; if cutc is true the separator is
excluded from the second substring; if sep does not occur, s and the empty
string are returned. -/
def split : Str → Char → Bool → Str × Str
  | [], _, _ => ([], [])
  | c :: cs, sep, cutc =>
    if c = sep then ([], if cutc then cs else c :: cs)
    else
      let p := split cs sep cutc
      (c :: p.1, p.2)

/-- Embedding of the strings.IndexAny step of ParseValues: cuts the query at
the first ampersand or semicolon, removing the separator. When no separator
occurs the second component is empty, matching the Go assignment query = "". -/
def splitAmpSemi : Str → Str × Str
  | [] => ([], [])
  | c :: cs =>
    if c = '&' ∨ c = ';' then ([], cs)
    else
      let p := splitAmpSemi cs
      (c :: p.1, p.2)

/-- Embedding of strings.Split with a one-character separator, as used by
parsePath and initResourceFields. -/
def goSplit (sep : Char) : Str → List Str
  | [] => [[]]
  | c :: cs =>
    match goSplit sep cs with
    | [] => [[]]
    | seg :: rest => if c = sep then [] :: seg :: rest else (c :: seg) :: rest

/-- Loop body of removeExtraDelimiters: rm records whether the previously
kept character was the delimiter. -/
def rmLoop : Bool → Str → Str
  | _, [] => []
  | rm, c :: cs => if c = '/' ∧ rm then rmLoop rm cs else c :: rmLoop (c = '/') cs

/-- Embedding of removeExtraDelimiters (qparser.go): collapses consecutive
slash delimiters, keeping the first character unconditionally. -/
def removeExtraDelimiters : Str → Str
  | [] => []
  | c :: cs => c :: rmLoop (c = '/') cs

/-- Hexadecimal digit test, as in net/url ishex. -/
def ishex (c : Char) : Bool :=
  ('0' ≤ c ∧ c ≤ '9') ∨ ('a' ≤ c ∧ c ≤ 'f') ∨ ('A' ≤ c ∧ c ≤ 'F')

/-- Hexadecimal digit value, as in net/url unhex. -/
def unhex (c : Char) : Nat :=
  if '0' ≤ c ∧ c ≤ '9' then c.toNat - '0'.toNat
  else if 'a' ≤ c ∧ c ≤ 'f' then c.toNat - 'a'.toNat + 10
  else c.toNat - 'A'.toNat + 10

/-- Embedding of the external percent decoder (net/url unescape): a percent
sign must be followed by two hexadecimal digits, otherwise decoding fails;
when plusToSpace is true a plus sign decodes to a space (query mode),
otherwise it is kept (path mode). -/
def unescape (plusToSpace : Bool) : Str → Option Str
  | [] => some []
  | '%' :: a :: b :: rest =>
    if ishex a ∧ ishex b then
      (unescape plusToSpace rest).map
        (fun r => Char.ofNat (16 * unhex a + unhex b) :: r)
    else none
  | '%' :: _ => none
  | c :: rest =>
    (unescape plusToSpace rest).map
      (fun r => (if plusToSpace ∧ c = '+' then ' ' else c) :: r)

/-- Embedding of url.QueryUnescape as called by ParseValues. -/
def queryUnescape : Str → Option Str := unescape true

/-- Embedding of url.PathUnescape as called by parsePath. -/
def pathUnescape : Str → Option Str := unescape false

/-- First loop of extractKeys: accumulates the top key until the first
opening bracket; fails (none) when a closing bracket appears before it or
when no opening bracket occurs at all (rest stays empty in the Go code).
Returns the accumulated top key and the rest starting at the bracket. -/
def scanTop : Str → Option (Str × Str)
  | [] => none
  | c :: cs =>
    if c = ']' then none
    else if c = '[' then some ([], c :: cs)
    else
      match scanTop cs with
      | none => none
      | some p => some (c :: p.1, p.2)

/-- Second loop of extractKeys: walks the bracketed tail with the opened
flag, accumulating the current nested key and the list of completed nested
keys; any alternation violation yields none (the Go code returns early). -/
def scanNested : Str → Bool → Str → List Str → Option (List Str)
  | [], _, _, acc => some acc
  | c :: cs, opened, nk, acc =>
    if (opened ∧ c = '[') ∨ (¬opened ∧ c ≠ '[') then none
    else if c = '[' then scanNested cs true nk acc
    else if c = ']' then
      if nk = [] then none else scanNested cs false [] (acc ++ [nk])
    else scanNested cs opened (nk ++ [c]) acc

/-- Embedding of extractKeys (qparser.go): fetches the top and nested keys
from a token; none models the Go nil slice of nested keys, while some
models a non-nil slice (the final return of the Go function always yields
a non-nil slice, even when it is empty). -/
def extractKeys (key : Str) : Str × Option (List Str) :=
  if key = [] then (key, none)
  else if key.head? = some '[' then (key, none)
  else
    match scanTop key with
    | none => (key, none)
    | some (topKey, rest) =>
      if rest = [] ∨ rest.length < 3 then (key, none)
      else
        match scanNested rest false [] [] with
        | none => (key, none)
        | some nestedKeys => (topKey, some nestedKeys)

/-- Embedding of the Value struct: one occurrence of a key in the query
string. NestedKeys none models the Go nil slice, and Val embeds the Go
field named Value, which cannot be a field of its own type here. -/
structure Value where
  TopLevelKey : Str
  NestedKeys : Option (List Str)
  Val : Str
deriving DecidableEq, Repr

/-- Number of nested keys of a value, len(val.NestedKeys) in Go. -/
def Value.nkLen (v : Value) : Nat := (v.NestedKeys.getD []).length

/-- First nested key of a value, val.NestedKeys[0] in Go. -/
def Value.nkHead (v : Value) : Str := (v.NestedKeys.getD []).headD []

/-- Embedding of the Values multimap as an association list from top-level
keys to lists of values; the Go map is only observed through lookups, so
the entry order carries no meaning. -/
abbrev Values := List (Str × List Value)

/-- Lookup of a key in the multimap, distinguishing absence (none) from
presence, like the Go two-result map read. -/
def Values.find? : Values → Str → Option (List Value)
  | [], _ => none
  | e :: es, k => if e.1 = k then some e.2 else Values.find? es k

/-- List stored under a key, empty when the key is absent. -/
def Values.get (vs : Values) (k : Str) : List Value :=
  (Values.find? vs k).getD []

/-- Embedding of the map-append step of ParseValues: appends the value to
the list under the key, creating the entry when absent. -/
def Values.add : Values → Str → Value → Values
  | [], k, v => [(k, [v])]
  | e :: es, k, v =>
    if e.1 = k then (e.1, e.2 ++ [v]) :: es else e :: Values.add es k v

/-- Key and value record built from one fragment, as in the loop body of
ParseValues: cut at the first equals sign, then extract the keys. -/
def recordOf (frag : Str) : Value :=
  let kv := split frag '=' true
  let tn := extractKeys kv.1
  ⟨tn.1, tn.2, kv.2⟩

/-- Main loop of ParseValues, with fuel bounding the number of iterations;
every iteration strictly shrinks the remaining query, so the initial fuel
of length plus one is never exhausted. -/
def parseValsLoop : Nat → Str → Values → Values
  | 0, _, vs => vs
  | fuel + 1, query, vs =>
    if query = [] then vs
    else
      let kq := splitAmpSemi query
      if kq.1 = [] then parseValsLoop fuel kq.2 vs
      else parseValsLoop fuel kq.2 (Values.add vs (recordOf kq.1).TopLevelKey (recordOf kq.1))

/-- Leading question mark removal in ParseValues. -/
def stripQm (q : Str) : Str := if q.head? = some '?' then q.drop 1 else q

/-- Error values returned by the fallible functions of the package. -/
inductive Err where
  | queryUnescapeErr : Err
  | pathUnescapeErr : Err
  | emptyPath : Err
  | pathFormat : Str → Str → Err
  | unknownPath : Str → Err
deriving DecidableEq, Repr

/-- Embedding of ParseValues (qparser.go): percent-decodes the query, strips
one leading question mark and folds the fragments into the multimap. -/
def ParseValues (query : Str) : Except Err Values :=
  match queryUnescape query with
  | none => .error .queryUnescapeErr
  | some g => .ok (parseValsLoop ((stripQm g).length + 1) (stripQm g) [])

/-- Embedding of the Resource struct; the Go field Type is a Lean keyword
and is written with a trailing prime. -/
structure Resource where
  Type' : Str
  ID : Str
deriving DecidableEq, Repr

/-- Embedding of the Include struct: Includes none models the Go nil slice
of children. -/
inductive Include : Type where
  | mk : Str → Option (List Include) → Include

/-- Relation name of an include node. -/
def Include.Relation : Include → Str
  | .mk r _ => r

/-- Children of an include node; none models the Go nil slice. -/
def Include.Includes : Include → Option (List Include)
  | .mk _ i => i

/-- Embedding of the Filter struct. -/
structure Filter where
  FieldName : Str
  Predicate : Str
deriving DecidableEq, Repr

/-- Embedding of the Page struct. -/
structure Page where
  Size : Str
  Number : Str
  Limit : Str
  Offset : Str
  Cursor : Str
deriving DecidableEq, Repr

/-- Embedding of the SortOrder constants. -/
inductive SortOrder where
  | OrderAsc : SortOrder
  | OrderDesc : SortOrder
deriving DecidableEq, Repr

export SortOrder (OrderAsc OrderDesc)

/-- Embedding of the Sort struct; Sort is a Lean keyword, so the structure
is named SortSpec. -/
structure SortSpec where
  FieldName : Str
  Order : SortOrder
deriving DecidableEq, Repr

/-- Embedding of ResourceFields as an association list from resource types
to field lists; the Go map is only observed through lookups. -/
abbrev RF := List (Str × List Str)

/-- Lookup in a ResourceFields or duplicates association list, empty when
the key is absent. -/
def rfGet : RF → Str → List Str
  | [], _ => []
  | e :: es, k => if e.1 = k then e.2 else rfGet es k

/-- Append step on the fields map: extends the entry when present and
creates it otherwise, as the two branches at the end of the loop body of
initResourceFields. -/
def rfAppend : RF → Str → List Str → RF
  | [], k, items => [(k, items)]
  | e :: es, k, items =>
    if e.1 = k then (e.1, e.2 ++ items) :: es else e :: rfAppend es k items

/-- Replacement step on the duplicates map of initResourceFields. -/
def rfSet : RF → Str → List Str → RF
  | [], k, items => [(k, items)]
  | e :: es, k, items =>
    if e.1 = k then (e.1, items) :: es else e :: rfSet es k items

/-- Inner filter of initResourceFields: keeps the items that are non-empty
and not yet in the seen set, threading the seen set through, as the Go loop
over the comma-separated list mutates byResource. -/
def dedupFilter : List Str → List Str → List Str × List Str
  | [], seen => ([], seen)
  | item :: rest, seen =>
    if item = [] ∨ item ∈ seen then dedupFilter rest seen
    else
      let p := dedupFilter rest (item :: seen)
      (item :: p.1, p.2)

/-- Loop of initResourceFields over the values of the fields key, carrying
the fields map, the duplicates map and the returnFields flag. -/
def fieldsLoop : List Value → RF → RF → Bool → RF × Bool
  | [], m, _, b => (m, b)
  | v :: vs, m, d, b =>
    if v.Val = [] ∨ v.nkLen ≠ 1 then fieldsLoop vs m d b
    else
      let rt := v.nkHead
      let seen := rfGet d rt
      let p := dedupFilter (goSplit ',' v.Val) seen
      let d' := rfSet d rt p.2
      if p.1 = [] then fieldsLoop vs m d' b
      else fieldsLoop vs (rfAppend m rt p.1) d' true

/-- Embedding of initResourceFields (qparser.go): none models the Go nil
map returned when the key is absent or nothing was accepted. -/
def initResourceFields (values : Values) : Option RF :=
  match Values.find? values (s2l "fields") with
  | none => none
  | some l =>
    let p := fieldsLoop l [] [] false
    if p.2 then some p.1 else none

/-- Inner loop of initSort over one comma-separated value, with fuel; the
loop stops at the first empty comma segment, exactly as the Go loop
condition cur != "" does. -/
def sortInner : Nat → Str → Str → List SortSpec → List Str → Bool →
    List SortSpec × List Str × Bool
  | 0, _, _, acc, dups, b => (acc, dups, b)
  | fuel + 1, cur, rest, acc, dups, b =>
    if cur = [] then (acc, dups, b)
    else
      let stripped := if cur.head? = some '-' then cur.drop 1 else cur
      let order := if cur.head? = some '-' then OrderDesc else OrderAsc
      let nxt := split rest ',' true
      if stripped ∈ dups then sortInner fuel nxt.1 nxt.2 acc dups b
      else if stripped = [] then sortInner fuel nxt.1 nxt.2 acc dups b
      else sortInner fuel nxt.1 nxt.2 (acc ++ [⟨stripped, order⟩]) (stripped :: dups) true

/-- Outer loop of initSort over the values of the sort key. -/
def sortOuter : List Value → List SortSpec → List Str → Bool →
    List SortSpec × List Str × Bool
  | [], acc, dups, b => (acc, dups, b)
  | v :: vs, acc, dups, b =>
    if v.Val = [] ∨ v.nkLen ≠ 0 then sortOuter vs acc dups b
    else
      let c := split v.Val ',' true
      let r := sortInner (v.Val.length + 1) c.1 c.2 acc dups b
      sortOuter vs r.1 r.2.1 r.2.2

/-- Embedding of initSort (qparser.go): none models the Go nil slice
returned when the key is absent or nothing was accepted. -/
def initSort (values : Values) : Option (List SortSpec) :=
  match Values.find? values (s2l "sort") with
  | none => none
  | some l =>
    let r := sortOuter l [] [] false
    if r.2.2 then some r.1 else none

/-- Loop of initFilters over the values of the filter key. -/
def filtersLoop : List Value → List Filter
  | [] => []
  | v :: vs =>
    if v.Val = [] ∨ v.nkLen ≠ 1 then filtersLoop vs
    else ⟨v.nkHead, v.Val⟩ :: filtersLoop vs

/-- Embedding of initFilters (qparser.go). -/
def initFilters (values : Values) : Option (List Filter) :=
  match Values.find? values (s2l "filter") with
  | none => none
  | some l =>
    let f := filtersLoop l
    if f = [] then none else some f

/-- Loop of initPage over the values of the page key. -/
def pageLoop : List Value → Page → Bool → Page × Bool
  | [], p, b => (p, b)
  | v :: vs, p, b =>
    if v.nkLen ≠ 1 then pageLoop vs p b
    else if v.nkHead = s2l "size" then pageLoop vs { p with Size := v.Val } true
    else if v.nkHead = s2l "number" then pageLoop vs { p with Number := v.Val } true
    else if v.nkHead = s2l "limit" then pageLoop vs { p with Limit := v.Val } true
    else if v.nkHead = s2l "offset" then pageLoop vs { p with Offset := v.Val } true
    else if v.nkHead = s2l "cursor" then pageLoop vs { p with Cursor := v.Val } true
    else pageLoop vs p b

/-- Embedding of initPage (qparser.go). -/
def initPage (values : Values) : Option Page :=
  match Values.find? values (s2l "page") with
  | none => none
  | some l =>
    let r := pageLoop l ⟨[], [], [], [], []⟩ false
    if r.2 then some r.1 else none

/-- Recursive descent of expandInclude with fuel; each step consumes the
part of the chain before the first dot, so the initial fuel of chain length
plus one is never exhausted. The first child whose relation matches is
reused, otherwise a new child is appended, exactly as in the Go function. -/
def expandIncludeF : Nat → Include → Str → Include
  | 0, root, _ => root
  | fuel + 1, root, queryPart =>
    if queryPart = [] then root
    else
      let p := split queryPart '.' true
      match root.Includes with
      | none => ⟨root.Relation, some [expandIncludeF fuel ⟨p.1, none⟩ p.2]⟩
      | some l =>
        match l.findIdx? (fun c => c.Relation = p.1) with
        | some i =>
          match l.get? i with
          | some child => ⟨root.Relation, some (l.set i (expandIncludeF fuel child p.2))⟩
          | none => root
        | none => ⟨root.Relation, some (l ++ [expandIncludeF fuel ⟨p.1, none⟩ p.2])⟩

/-- Embedding of expandInclude (qparser.go). -/
def expandInclude (root : Include) (queryPart : Str) : Include :=
  expandIncludeF (queryPart.length + 1) root queryPart

/-- Root step of initIncludes for one relation chain: the root node is
looked up by name and expanded in place, or created and appended, keeping
first-appearance order of roots. -/
def insertChain : List Include → Str → Str → List Include
  | [], rootKey, next => [expandInclude ⟨rootKey, none⟩ next]
  | inc :: rest, rootKey, next =>
    if inc.Relation = rootKey then expandInclude inc next :: rest
    else inc :: insertChain rest rootKey next

/-- Inner loop of initIncludes over one comma-separated value, with fuel;
like the sort loop it stops at the first empty comma segment. -/
def includeChainLoop : Nat → Str → Str → List Include → List Include
  | 0, _, _, acc => acc
  | fuel + 1, cur, rest, acc =>
    if cur = [] then acc
    else
      let p := split cur '.' true
      let acc' := insertChain acc p.1 p.2
      let nxt := split rest ',' true
      includeChainLoop fuel nxt.1 nxt.2 acc'

/-- Outer loop of initIncludes over the values of the include key. -/
def includesOuter : List Value → List Include → List Include
  | [], acc => acc
  | v :: vs, acc =>
    if v.nkLen > 0 ∨ v.Val = [] then includesOuter vs acc
    else
      let c := split v.Val ',' true
      includesOuter vs (includeChainLoop (v.Val.length + 1) c.1 c.2 acc)

/-- Embedding of initIncludes (qparser.go): none models the Go nil slice
returned when the include key is absent; when the key is present the
result is a non-nil, possibly empty forest. -/
def initIncludes (values : Values) : Option (List Include) :=
  match Values.find? values (s2l "include") with
  | none => none
  | some l => some (includesOuter l [])

/-- Embedding of the Query struct; the Go field Sort is a Lean keyword and
is written with a trailing prime. -/
structure Query where
  Includes : Option (List Include)
  Fields : Option RF
  Sort' : Option (List SortSpec)
  Filters : Option (List Filter)
  Page : Option Page
  Values : Values

/-- Embedding of ParseQuery (qparser.go). -/
def ParseQuery (query : Str) : Except Err Query :=
  match ParseValues query with
  | .error e => .error e
  | .ok values =>
    .ok ⟨initIncludes values, initResourceFields values, initSort values,
      initFilters values, initPage values, values⟩

/-- Embedding of the Request struct; Query none models the Go nil pointer
of the fresh request built by parsePath. -/
structure Request where
  Resource : Resource
  RelationshipType : Str
  RelatedResourceType : Str
  Query : Option Query

/-- Embedding of the IsRelationshipRequest method, which in the source
reads the RelatedResourceType field. -/
def Request.IsRelationshipRequest (r : Request) : Bool :=
  r.RelatedResourceType ≠ []

/-- Embedding of the IsRelatedResourceRequest method. -/
def Request.IsRelatedResourceRequest (r : Request) : Bool :=
  r.RelatedResourceType ≠ []

/-- Leading slash removal in parsePath. -/
def stripLead (p : Str) : Str := if p.head? = some '/' then p.drop 1 else p

/-- Segments of a decoded path: delimiters normalized, one leading slash
stripped, then split on the slash. -/
def pathSegments (p : Str) : List Str :=
  goSplit '/' (stripLead (removeExtraDelimiters p))

/-- Relationships literal of the path grammar. -/
def relationshipsRequest : Str := s2l "relationships"

/-- Embedding of parsePath (qparser.go): percent-decodes the path,
normalizes delimiters, rejects empty or lone-slash paths, then classifies
by segment count. -/
def parsePath (path : Str) : Except Err Request :=
  match pathUnescape path with
  | none => .error .pathUnescapeErr
  | some q =>
    let p := removeExtraDelimiters q
    if p = [] ∨ p = ['/'] then .error .emptyPath
    else
      match pathSegments q with
      | [a] => .ok ⟨⟨a, []⟩, [], [], none⟩
      | [a, b] => .ok ⟨⟨a, b⟩, [], [], none⟩
      | [a, b, c] => .ok ⟨⟨a, b⟩, [], c, none⟩
      | [a, b, c, d] =>
        if c = relationshipsRequest then .ok ⟨⟨a, b⟩, d, [], none⟩
        else .error (.pathFormat relationshipsRequest c)
      | _ => .error (.unknownPath (stripLead p))

/-- Embedding of ParseRequest (qparser.go): splits the input at the first
question mark, parses the path, then the query. -/
def ParseRequest (params : Str) : Except Err Request :=
  let pq := split params '?' true
  match parsePath pq.1 with
  | .error e => .error e
  | .ok r =>
    match ParseQuery pq.2 with
    | .error e => .error e
    | .ok q => .ok { r with Query := some q }

/-- Specification-level collapse of delimiter runs, following the words of
the spec: every maximal run of the separator character is collapsed to a
single occurrence and all other content is kept unchanged. Written as
removal of a slash that immediately follows another slash. -/
def collapseRunsSpec : Str → Str
  | [] => []
  | [c] => [c]
  | c :: d :: rest =>
    if c = '/' ∧ d = '/' then collapseRunsSpec (d :: rest)
    else c :: collapseRunsSpec (d :: rest)

/-- Specification-level fragment list of a decoded query string: the
non-empty substrings between ampersand or semicolon separators, in order,
with the same fuel convention as the parse loop. -/
def fragmentsFuel : Nat → Str → List Str
  | 0, _ => []
  | fuel + 1, q =>
    if q = [] then []
    else
      let kq := splitAmpSemi q
      if kq.1 = [] then fragmentsFuel fuel kq.2
      else kq.1 :: fragmentsFuel fuel kq.2

/-- Fragments of a decoded query string. -/
def fragmentsOf (q : Str) : List Str := fragmentsFuel (q.length + 1) q

/-- Specification-level trimming of spaces at both ends of a string, used
to state the trimming condition that the spec puts on fields values. -/
def trim (s : Str) : Str :=
  ((s.dropWhile (fun c => c = ' ')).reverse.dropWhile (fun c => c = ' ')).reverse

/-- Degenerate path condition of parsePath: the decoded path normalizes to
the empty string or to a lone separator. -/
def degeneratePath (p : Str) : Prop :=
  removeExtraDelimiters p = [] ∨ removeExtraDelimiters p = ['/']

/-- Hard failure conditions of the path side: decode failure, degenerate
path, more than four segments, or a four-segment path whose third segment
is not the relationships literal. -/
def pathHardFailure (path : Str) : Prop :=
  pathUnescape path = none ∨
  (∃ p, pathUnescape path = some p ∧ degeneratePath p) ∨
  (∃ p, pathUnescape path = some p ∧ 4 < (pathSegments p).length) ∨
  (∃ p, pathUnescape path = some p ∧ (pathSegments p).length = 4 ∧
    (pathSegments p).get? 2 ≠ some relationshipsRequest)

/-- Hard failure conditions of ParseRequest: a path hard failure or a
decode failure of the query side. -/
def hardFailure (params : Str) : Prop :=
  pathHardFailure (split params '?' true).1 ∨
  queryUnescape (split params '?' true).2 = none

/-- Invariant carried by the sort builder: collected field names are
duplicate-free and all recorded in the duplicates set. -/
def sortInv (acc : List SortSpec) (dups : List Str) : Prop :=
  (acc.map SortSpec.FieldName).Nodup ∧ ∀ s ∈ acc, s.FieldName ∈ dups

/-- Invariant carried by the fields builder: per resource type, collected
fields are duplicate-free and all recorded in the duplicates map. -/
def fieldsInv (m d : RF) : Prop :=
  ∀ rt, (rfGet m rt).Nodup ∧ ∀ f ∈ rfGet m rt, f ∈ rfGet d rt

section Theorems

/-! Helper lemmas about the delimiter normalizer. -/

theorem rmLoop_idem (s : Str) : ∀ rm, rmLoop rm (rmLoop rm s) = rmLoop rm s := by
  induction s with
  | nil => intro rm; rfl
  | cons c cs ih =>
    intro rm
    by_cases h : c = '/' ∧ rm = true
    · simp only [rmLoop, if_pos h]
      exact ih rm
    · simp only [rmLoop, if_neg h]
      exact congrArg (c :: ·) (ih _)

theorem cons_rmLoop_eq_collapse (s : Str) :
    ∀ c, c :: rmLoop (decide (c = '/')) s = collapseRunsSpec (c :: s) := by
  induction s with
  | nil => intro c; rfl
  | cons d ds ih =>
    intro c
    by_cases h : c = '/' ∧ d = '/'
    · have hcond : d = '/' ∧ decide (c = '/') = true := by
        exact ⟨h.2, by simp [h.1]⟩
      simp only [rmLoop, if_pos hcond, collapseRunsSpec, if_pos h]
      rw [← ih d, h.1, h.2]
    · have hcond : ¬(d = '/' ∧ decide (c = '/') = true) := by
        intro hc
        exact h ⟨by simpa using hc.2, hc.1⟩
      simp only [rmLoop, if_neg hcond, collapseRunsSpec, if_neg h]
      rw [ih d]

theorem removeExtraDelimiters_eq_collapse (s : Str) :
    removeExtraDelimiters s = collapseRunsSpec s := by
  cases s with
  | nil => rfl
  | cons c cs => exact cons_rmLoop_eq_collapse cs c

/-- C9: removeExtraDelimiters collapses every maximal run of slashes to a
single slash and leaves all other content unchanged (it agrees with the
specification-level collapse function), maps the empty string to the empty
string, and is idempotent. -/
theorem removeExtraDelimiters_collapse_idem :
    removeExtraDelimiters [] = [] ∧
    (∀ s, removeExtraDelimiters s = collapseRunsSpec s) ∧
    (∀ s, removeExtraDelimiters (removeExtraDelimiters s) = removeExtraDelimiters s) := by
  refine ⟨rfl, removeExtraDelimiters_eq_collapse, fun s => ?_⟩
  cases s with
  | nil => rfl
  | cons c cs =>
    simp only [removeExtraDelimiters]
    exact congrArg (c :: ·) (rmLoop_idem cs _)

/-- C1: evaluation of extractKeys at the inputs that decide the fail-soft
claim. On well-formed input and on trailing malformed content the function
behaves as documented, but on an unclosed or dangling trailing bracket it
returns a modified top key together with a partial (or empty but non-nil)
nested key list, contradicting its own documentation. -/
theorem extractKeys_failsoft_bug_eval :
    extractKeys (s2l "field[lvl1][lvl2]") = (s2l "field", some [s2l "lvl1", s2l "lvl2"]) ∧
    extractKeys (s2l "field[lvl1][lvl2].[lvl3]") = (s2l "field[lvl1][lvl2].[lvl3]", none) ∧
    extractKeys (s2l "k[a][b") = (s2l "k", some [s2l "a"]) ∧
    extractKeys (s2l "k[a][") = (s2l "k", some [s2l "a"]) ∧
    extractKeys (s2l "k[ab") = (s2l "k", some []) := by
  refine ⟨by decide, by decide, by decide, by decide, by decide⟩

/-- C10: IsRelationshipRequest and IsRelatedResourceRequest return the same
boolean, both reporting that RelatedResourceType is non-empty; hence the
request parsed from a four-segment relationships path, which sets only
RelationshipType, has IsRelationshipRequest returning false. -/
theorem relationship_request_flags :
    (∀ r : Request, r.IsRelationshipRequest = r.IsRelatedResourceRequest) ∧
    (∀ r : Request, (r.IsRelationshipRequest = true ↔ r.RelatedResourceType ≠ [])) ∧
    (∃ req, parsePath (s2l "/articles/1/relationships/comments") = .ok req ∧
      req.IsRelationshipRequest = false) := by
  refine ⟨fun r => rfl, fun r => ?_, ?_⟩
  · simp [Request.IsRelationshipRequest]
  · exact ⟨⟨⟨s2l "articles", s2l "1"⟩, s2l "comments", [], none⟩, by rfl, by rfl⟩

/-! Helper lemmas about the sort builder. -/

theorem sortInv_append (acc : List SortSpec) (dups : List Str) (f : Str) (o : SortOrder)
    (h : sortInv acc dups) (hf : f ∉ dups) :
    sortInv (acc ++ [⟨f, o⟩]) (f :: dups) := by
  constructor
  · rw [List.map_append]
    refine List.Nodup.append h.1 (List.nodup_singleton _) ?_
    intro x hx hx'
    rcases List.mem_map.mp hx with ⟨s, hs, hfn⟩
    simp only [List.map_cons, List.map_nil, List.mem_singleton] at hx'
    exact hf (hx' ▸ hfn ▸ h.2 s hs)
  · intro s hs
    rcases List.mem_append.mp hs with h1 | h1
    · exact List.mem_cons_of_mem _ (h.2 s h1)
    · simp only [List.mem_singleton] at h1
      subst h1
      exact List.mem_cons_self _ _

theorem sortInner_inv : ∀ (fuel : Nat) (cur rest : Str) (acc : List SortSpec)
    (dups : List Str) (b : Bool), sortInv acc dups →
    sortInv (sortInner fuel cur rest acc dups b).1
      (sortInner fuel cur rest acc dups b).2.1 := by
  intro fuel
  induction fuel with
  | zero => intro cur rest acc dups b h; exact h
  | succ fuel ih =>
    intro cur rest acc dups b h
    by_cases hc : cur = []
    · simp only [sortInner, if_pos hc]; exact h
    · simp only [sortInner, if_neg hc]
      by_cases hh : cur.head? = some '-'
      · simp only [if_pos hh]
        split_ifs with h1 h2
        · exact ih _ _ _ _ _ h
        · exact ih _ _ _ _ _ h
        · exact ih _ _ _ _ _ (sortInv_append _ _ _ _ h h1)
      · simp only [if_neg hh]
        split_ifs with h1
        · exact ih _ _ _ _ _ h
        · exact ih _ _ _ _ _ (sortInv_append _ _ _ _ h h1)

theorem sortOuter_inv : ∀ (vs : List Value) (acc : List SortSpec) (dups : List Str)
    (b : Bool), sortInv acc dups →
    sortInv (sortOuter vs acc dups b).1 (sortOuter vs acc dups b).2.1 := by
  intro vs
  induction vs with
  | nil => intro acc dups b h; exact h
  | cons v vs ih =>
    intro acc dups b h
    by_cases hv : v.Val = [] ∨ v.nkLen ≠ 0
    · simp only [sortOuter, if_pos hv]; exact ih _ _ _ h
    · simp only [sortOuter, if_neg hv]
      exact ih _ _ _ (sortInner_inv _ _ _ _ _ _ h)

/-- C4: the sort builder deduplicates globally by field name, ignoring the
descending sign (the produced field names are duplicate-free for every
input), and on the two fragments of the claim it keeps the first
occurrence with its direction and drops every later duplicate, preserving
first-occurrence order. -/
theorem initSort_dedup :
    (∀ vs, (((initSort vs).getD []).map SortSpec.FieldName).Nodup) ∧
    initSort [(s2l "sort", [⟨s2l "sort", none, s2l "createdAt,-title,duplicate,duplicate"⟩,
        ⟨s2l "sort", none, s2l "author,-duplicate"⟩])] =
      some [⟨s2l "createdAt", OrderAsc⟩, ⟨s2l "title", OrderDesc⟩,
        ⟨s2l "duplicate", OrderAsc⟩, ⟨s2l "author", OrderAsc⟩] := by
  constructor
  · intro vs
    simp only [initSort]
    split
    · simp
    · rename_i l heq
      have hinv : sortInv [] [] := ⟨List.nodup_nil, by intro s hs; simp at hs⟩
      have hres := (sortOuter_inv l [] [] false hinv).1
      split
      · simpa using hres
      · simp
  · rfl

/-! Helper lemmas about the include builder. -/

theorem expandIncludeF_Relation (fuel : Nat) (root : Include) (qp : Str) :
    (expandIncludeF fuel root qp).Relation = root.Relation := by
  cases fuel with
  | zero => rfl
  | succ fuel =>
    simp only [expandIncludeF]
    split
    · rfl
    · split
      · rfl
      · split
        · split
          · rfl
          · rfl
        · rfl

theorem expandInclude_Relation (root : Include) (qp : Str) :
    (expandInclude root qp).Relation = root.Relation :=
  expandIncludeF_Relation _ _ _

theorem Include.Relation_mk (r : Str) (i : Option (List Include)) :
    (Include.mk r i).Relation = r := rfl

theorem insertChain_map (k n : Str) : ∀ acc : List Include,
    (insertChain acc k n).map Include.Relation =
      if k ∈ acc.map Include.Relation then acc.map Include.Relation
      else acc.map Include.Relation ++ [k] := by
  intro acc
  induction acc with
  | nil => simp [insertChain, expandInclude_Relation, Include.Relation_mk]
  | cons inc rest ih =>
    by_cases hr : inc.Relation = k
    · simp [insertChain, if_pos hr, expandInclude_Relation, hr]
    · simp only [insertChain, if_neg hr, List.map_cons, ih, List.mem_cons]
      have : (k = inc.Relation ∨ k ∈ rest.map Include.Relation) ↔
          k ∈ rest.map Include.Relation := by
        constructor
        · rintro (h | h)
          · exact absurd h.symm hr
          · exact h
        · exact Or.inr
      rw [if_congr this rfl rfl]
      split
      · rfl
      · simp

theorem insertChain_nodup (k n : Str) (acc : List Include)
    (h : (acc.map Include.Relation).Nodup) :
    ((insertChain acc k n).map Include.Relation).Nodup := by
  by_cases hk : k ∈ acc.map Include.Relation
  · rw [insertChain_map, if_pos hk]; exact h
  · rw [insertChain_map, if_neg hk]
    refine List.Nodup.append h (List.nodup_singleton _) ?_
    intro x hx hx'
    simp only [List.mem_singleton] at hx'
    exact hk (hx' ▸ hx)

theorem includeChainLoop_nodup : ∀ (fuel : Nat) (cur rest : Str) (acc : List Include),
    (acc.map Include.Relation).Nodup →
    ((includeChainLoop fuel cur rest acc).map Include.Relation).Nodup := by
  intro fuel
  induction fuel with
  | zero => intro _ _ _ h; exact h
  | succ fuel ih =>
    intro cur rest acc h
    by_cases hc : cur = []
    · simp only [includeChainLoop, if_pos hc]; exact h
    · simp only [includeChainLoop, if_neg hc]
      exact ih _ _ _ (insertChain_nodup _ _ _ h)

theorem includesOuter_nodup : ∀ (vs : List Value) (acc : List Include),
    (acc.map Include.Relation).Nodup →
    ((includesOuter vs acc).map Include.Relation).Nodup := by
  intro vs
  induction vs with
  | nil => intro acc h; exact h
  | cons v vs ih =>
    intro acc h
    by_cases hv : v.nkLen > 0 ∨ v.Val = []
    · simp only [includesOuter, if_pos hv]; exact ih _ h
    · simp only [includesOuter, if_neg hv]
      exact ih _ (includeChainLoop_nodup _ _ _ _ h)

/-- C5: the include builder merges relation chains from separate values into
a single forest with root relations unique by name (for every input), and
on the three values of the claim it produces exactly the two roots author
and comments in first-appearance order, author carrying the single child
avatar and comments carrying the children author and replies in
first-appearance order. -/
theorem initIncludes_merge :
    (∀ vs, (((initIncludes vs).getD []).map Include.Relation).Nodup) ∧
    initIncludes [(s2l "include", [⟨s2l "include", none, s2l "author,comments.author"⟩,
        ⟨s2l "include", none, s2l "comments.replies"⟩,
        ⟨s2l "include", none, s2l "author.avatar"⟩])] =
      some [.mk (s2l "author") (some [.mk (s2l "avatar") none]),
        .mk (s2l "comments") (some [.mk (s2l "author") none, .mk (s2l "replies") none])] := by
  constructor
  · intro vs
    unfold initIncludes
    cases h : Values.find? vs (s2l "include") with
    | none => simp
    | some l => simpa using includesOuter_nodup l [] (by simp)

  · rfl

/-! Helper lemmas about the fields builder. -/

theorem dedupFilter_spec : ∀ (parts seen : List Str),
    (dedupFilter parts seen).1.Nodup ∧
    (∀ f ∈ (dedupFilter parts seen).1, f ∉ seen) ∧
    (∀ f ∈ seen, f ∈ (dedupFilter parts seen).2) ∧
    (∀ f ∈ (dedupFilter parts seen).1, f ∈ (dedupFilter parts seen).2) := by
  intro parts
  induction parts with
  | nil =>
    intro seen
    refine ⟨List.nodup_nil, by simp [dedupFilter], by simp [dedupFilter], by simp [dedupFilter]⟩
  | cons item rest ih =>
    intro seen
    by_cases hskip : item = [] ∨ item ∈ seen
    · simp only [dedupFilter, if_pos hskip]; exact ih seen
    · simp only [dedupFilter, if_neg hskip]
      obtain ⟨hnd, hnotseen, hsub, hmem⟩ := ih (item :: seen)
      push_neg at hskip
      refine ⟨?_, ?_, ?_, ?_⟩
      · refine List.nodup_cons.mpr ⟨?_, hnd⟩
        intro hmem'
        exact (hnotseen item hmem') (List.mem_cons_self _ _)
      · intro f hf
        rcases List.mem_cons.mp hf with rfl | hf'
        · exact hskip.2
        · intro hfseen
          exact (hnotseen f hf') (List.mem_cons_of_mem _ hfseen)
      · intro f hf
        exact hsub f (List.mem_cons_of_mem _ hf)
      · intro f hf
        rcases List.mem_cons.mp hf with rfl | hf'
        · exact hsub f (List.mem_cons_self _ _)
        · exact hmem f hf'

theorem rfGet_rfAppend (k : Str) (items : List Str) : ∀ (m : RF) (k2 : Str),
    rfGet (rfAppend m k items) k2 =
      if k2 = k then rfGet m k2 ++ items else rfGet m k2 := by
  intro m
  induction m with
  | nil =>
    intro k2
    by_cases h : k2 = k
    · subst h; simp [rfAppend, rfGet]
    · simp [rfAppend, rfGet, h, Ne.symm h]
  | cons e es ih =>
    intro k2
    by_cases he : e.1 = k
    · simp only [rfAppend, if_pos he]
      by_cases hk2 : e.1 = k2
      · have : k2 = k := hk2 ▸ he
        simp [rfGet, hk2, this]
      · have : ¬k2 = k := fun hh => hk2 (he.symm ▸ hh.symm ▸ rfl)
        simp [rfGet, hk2, this]
    · simp only [rfAppend, if_neg he]
      by_cases hk2 : e.1 = k2
      · have : ¬k2 = k := fun hh => he (hk2 ▸ hh)
        simp [rfGet, hk2, this]
      · simp [rfGet, hk2, ih k2]

theorem rfGet_rfSet (k : Str) (items : List Str) : ∀ (d : RF) (k2 : Str),
    rfGet (rfSet d k items) k2 = if k2 = k then items else rfGet d k2 := by
  intro d
  induction d with
  | nil =>
    intro k2
    by_cases h : k2 = k
    · subst h; simp [rfSet, rfGet]
    · simp [rfSet, rfGet, h, Ne.symm h]
  | cons e es ih =>
    intro k2
    by_cases he : e.1 = k
    · simp only [rfSet, if_pos he]
      by_cases hk2 : e.1 = k2
      · have : k2 = k := hk2 ▸ he
        simp [rfGet, hk2, this]
      · have : ¬k2 = k := fun hh => hk2 (he.symm ▸ hh.symm ▸ rfl)
        simp [rfGet, hk2, this]
    · simp only [rfSet, if_neg he]
      by_cases hk2 : e.1 = k2
      · have : ¬k2 = k := fun hh => he (hk2 ▸ hh)
        simp [rfGet, hk2, this]
      · simp [rfGet, hk2, ih k2]

theorem fieldsLoop_nodup : ∀ (vs : List Value) (m d : RF) (b : Bool),
    fieldsInv m d → ∀ rt, (rfGet (fieldsLoop vs m d b).1 rt).Nodup := by
  intro vs
  induction vs with
  | nil => intro m d b h rt; exact (h rt).1
  | cons v vs ih =>
    intro m d b h
    by_cases hskip : v.Val = [] ∨ v.nkLen ≠ 1
    · simp only [fieldsLoop, if_pos hskip]; exact ih _ _ _ h
    · simp only [fieldsLoop, if_neg hskip]
      obtain ⟨hnd1, hns, hsub, hmem⟩ :=
        dedupFilter_spec (goSplit ',' v.Val) (rfGet d v.nkHead)
      split_ifs with hemp
      · refine ih _ _ _ ?_
        intro rt2
        obtain ⟨hnd, hs⟩ := h rt2
        refine ⟨hnd, ?_⟩
        intro f hf
        rw [rfGet_rfSet]
        split_ifs with heq
        · exact hsub f (heq ▸ hs f hf)
        · exact hs f hf
      · refine ih _ _ _ ?_
        intro rt2
        obtain ⟨hnd, hs⟩ := h rt2
        rw [rfGet_rfAppend, rfGet_rfSet]
        split_ifs with heq
        · constructor
          · refine List.Nodup.append hnd hnd1 ?_
            intro x hx hx'
            exact (hns x hx') (heq ▸ hs x hx)
          · intro f hf
            rcases List.mem_append.mp hf with h1 | h1
            · exact hsub f (heq ▸ hs f h1)
            · exact hmem f h1
        · exact ⟨hnd, hs⟩

/-- C7 counterexample: the fields builder accepts a value consisting of a
single space, which is empty after trimming, and emits it as a field name;
the claim as stated predicts that this entry is rejected. -/
theorem initResourceFields_trim_cex :
    trim (s2l " ") = [] ∧
    initResourceFields [(s2l "fields", [⟨s2l "fields", some [s2l "articles"], s2l " "⟩])] =
      some [(s2l "articles", [s2l " "])] :=
  ⟨rfl, rfl⟩

/-- C7 (amended: the builder requires a non-empty value, with no trimming):
the fields builder accepts only entries with exactly one nested key and a
non-empty value, splits on commas dropping empty items, deduplicates per
resource type in first-occurrence order with the seen set persisting
across fragments, and appends later fragments for the same resource type
to the existing ordered list. -/
theorem initResourceFields_union_dedup :
    (∀ vs rt, (rfGet ((initResourceFields vs).getD []) rt).Nodup) ∧
    initResourceFields [(s2l "fields",
        [⟨s2l "fields", some [s2l "articles"], s2l "title,body,image"⟩,
         ⟨s2l "fields", some [s2l "articles"], s2l "title,body,topic,image"⟩])] =
      some [(s2l "articles", [s2l "title", s2l "body", s2l "image", s2l "topic"])] ∧
    initResourceFields [(s2l "fields",
        [⟨s2l "fields", some [s2l "articles"], s2l ",,,title,,"⟩])] =
      some [(s2l "articles", [s2l "title"])] ∧
    initResourceFields [(s2l "fields",
        [⟨s2l "fields", some [s2l "articles", s2l "x"], s2l "title"⟩])] = none ∧
    initResourceFields [(s2l "fields",
        [⟨s2l "fields", some [s2l "articles"], s2l ""⟩])] = none := by
  refine ⟨?_, rfl, rfl, rfl, rfl⟩
  intro vs rt
  simp only [initResourceFields]
  split
  · simp [rfGet]
  · rename_i l heq
    have hinv : fieldsInv [] [] := by
      intro rt2
      exact ⟨List.nodup_nil, by simp [rfGet]⟩
    have hres := fieldsLoop_nodup l [] [] false hinv rt
    split
    · simpa using hres
    · simp [rfGet]

/-! Helper lemmas about ParseValues. -/

theorem get_add : ∀ (vs : Values) (k : Str) (v : Value) (K : Str),
    Values.get (Values.add vs k v) K =
      if K = k then Values.get vs K ++ [v] else Values.get vs K := by
  intro vs
  induction vs with
  | nil =>
    intro k v K
    by_cases h : K = k
    · subst h; simp [Values.add, Values.get, Values.find?]
    · simp [Values.add, Values.get, Values.find?, h, Ne.symm h]
  | cons e es ih =>
    intro k v K
    by_cases he : e.1 = k
    · simp only [Values.add, if_pos he]
      by_cases hK : e.1 = K
      · have hKk : K = k := hK ▸ he
        simp [Values.get, Values.find?, hK, hKk]
      · have hnk : ¬K = k := fun hh => hK (he.symm ▸ hh.symm ▸ rfl)
        simp [Values.get, Values.find?, hK, hnk]
    · simp only [Values.add, if_neg he]
      by_cases hK : e.1 = K
      · have hnk : ¬K = k := fun hh => he (hK ▸ hh)
        simp [Values.get, Values.find?, hK, hnk]
      · simp only [Values.get, Values.find?, if_neg hK]
        exact ih k v K

theorem splitAmpSemi_snd_lt : ∀ (q : Str), q ≠ [] →
    (splitAmpSemi q).2.length < q.length := by
  intro q
  induction q with
  | nil => intro h; exact absurd rfl h
  | cons c cs ih =>
    intro _
    by_cases h : c = '&' ∨ c = ';'
    · simp only [splitAmpSemi, if_pos h]
      exact Nat.lt_succ_self _
    · simp only [splitAmpSemi, if_neg h]
      by_cases hcs : cs = []
      · subst hcs
        simp [splitAmpSemi]
      · exact Nat.lt_succ_of_lt (ih hcs)

theorem parseValsLoop_get : ∀ (fuel : Nat) (q : Str) (vs : Values) (K : Str),
    q.length < fuel →
    Values.get (parseValsLoop fuel q vs) K =
      Values.get vs K ++
        ((fragmentsFuel fuel q).map recordOf).filter (fun r => r.TopLevelKey = K) := by
  intro fuel
  induction fuel with
  | zero => intro q vs K h; exact absurd h (Nat.not_lt_zero _)
  | succ fuel ih =>
    intro q vs K h
    by_cases hq : q = []
    · simp [parseValsLoop, fragmentsFuel, hq]
    · have hlt : (splitAmpSemi q).2.length < fuel :=
        Nat.lt_of_lt_of_le (splitAmpSemi_snd_lt q hq) (Nat.lt_succ_iff.mp h)
      by_cases hk : (splitAmpSemi q).1 = []
      · simp only [parseValsLoop, if_neg hq, if_pos hk, fragmentsFuel]
        exact ih _ _ _ hlt
      · simp only [parseValsLoop, if_neg hq, if_neg hk, fragmentsFuel]
        rw [ih _ _ _ hlt, get_add]
        by_cases hKt : K = (recordOf (splitAmpSemi q).1).TopLevelKey
        · rw [if_pos hKt]
          simp only [List.map_cons, List.filter_cons]
          rw [if_pos (by simp [hKt])]
          rw [List.append_assoc]
          rfl
        · rw [if_neg hKt]
          simp only [List.map_cons, List.filter_cons]
          rw [if_neg (by simp; exact fun hh => hKt hh.symm)]

theorem parseValues_eq (q g : Str) (h : queryUnescape q = some g) :
    ParseValues q = .ok (parseValsLoop ((stripQm g).length + 1) (stripQm g) []) := by
  simp [ParseValues, h]

/-- C6: ParseValues of the empty string returns the empty multimap without
an error; in general, for a successfully decoded query the sequence stored
under any key is exactly the fragment records carrying that top-level key,
in fragment occurrence order; in particular, repeated keys as in
key=v1&key=v2 keep occurrence order. -/
theorem parseValues_empty_and_order :
    ParseValues [] = .ok [] ∧
    (∀ q g vs K, queryUnescape q = some g → ParseValues q = .ok vs →
      Values.get vs K =
        ((fragmentsOf (stripQm g)).map recordOf).filter (fun r => r.TopLevelKey = K)) ∧
    (∃ vs, ParseValues (s2l "key=v1&key=v2") = .ok vs ∧
      Values.get vs (s2l "key") =
        [⟨s2l "key", none, s2l "v1"⟩, ⟨s2l "key", none, s2l "v2"⟩]) := by
  refine ⟨rfl, ?_, ?_⟩
  · intro q g vs K hg hok
    rw [parseValues_eq q g hg] at hok
    have hvs : parseValsLoop ((stripQm g).length + 1) (stripQm g) [] = vs := by
      simpa using hok
    subst hvs
    have hmain := parseValsLoop_get ((stripQm g).length + 1) (stripQm g) [] K
      (Nat.lt_succ_self _)
    simpa [fragmentsOf, Values.get, Values.find?] using hmain
  · exact ⟨_, rfl, rfl⟩

/-- C6 witness: the general order conjunct applied to the concrete query
key=v1&key=v2 at key. -/
theorem parseValues_empty_and_order_witness :
    Values.get [(s2l "key", [⟨s2l "key", none, s2l "v1"⟩, ⟨s2l "key", none, s2l "v2"⟩])]
        (s2l "key") =
      ((fragmentsOf (stripQm (s2l "key=v1&key=v2"))).map recordOf).filter
        (fun r => r.TopLevelKey = s2l "key") :=
  parseValues_empty_and_order.2.1 (s2l "key=v1&key=v2") (s2l "key=v1&key=v2")
    [(s2l "key", [⟨s2l "key", none, s2l "v1"⟩, ⟨s2l "key", none, s2l "v2"⟩])] (s2l "key")
    (by rfl) (by rfl)

/-- C8: every value record stored under a key of a multimap produced by
ParseValues carries that key as its TopLevelKey. -/
theorem parseValues_topLevelKey_invariant (q : Str) (vs : Values) (K : Str) (v : Value)
    (h1 : ParseValues q = .ok vs) (h2 : v ∈ Values.get vs K) : v.TopLevelKey = K := by
  cases hu : queryUnescape q with
  | none =>
    rw [ParseValues, hu] at h1
    exact absurd h1 (by simp)
  | some g =>
    rw [parseValues_eq q g hu] at h1
    have hvs : parseValsLoop ((stripQm g).length + 1) (stripQm g) [] = vs := by
      simpa using h1
    subst hvs
    rw [parseValsLoop_get ((stripQm g).length + 1) (stripQm g) [] K
      (Nat.lt_succ_self _)] at h2
    simp only [Values.get, Values.find?, Option.getD_none, List.nil_append] at h2
    have := List.of_mem_filter h2
    simpa using this

/-- C8 witness: the invariant applied to the concrete query a=1 at key a. -/
theorem parseValues_topLevelKey_invariant_witness :
    (⟨s2l "a", none, s2l "1"⟩ : Value).TopLevelKey = s2l "a" :=
  parseValues_topLevelKey_invariant (s2l "a=1") [(s2l "a", [⟨s2l "a", none, s2l "1"⟩])]
    (s2l "a") ⟨s2l "a", none, s2l "1"⟩ (by rfl) (by simp [Values.get, Values.find?])

/-! Helper lemmas about parsePath and ParseRequest. -/

theorem goSplit_ne_nil (sep : Char) : ∀ s : Str, goSplit sep s ≠ [] := by
  intro s
  cases s with
  | nil => simp [goSplit]
  | cons c cs =>
    simp only [goSplit]
    split
    · simp
    · split <;> simp

/-- C2: for every path whose decoded form normalizes to one to four
segments, parsePath populates exactly the fields of the segment-count
table and no others; a four-segment path requires the literal
relationships as its third segment and otherwise fails with an error
naming the expected literal and the received segment. -/
theorem parsePath_segment_table (path q : Str)
    (hdec : pathUnescape path = some q)
    (hne : ¬(removeExtraDelimiters q = [] ∨ removeExtraDelimiters q = ['/'])) :
    (∀ a, pathSegments q = [a] →
      parsePath path = .ok ⟨⟨a, []⟩, [], [], none⟩) ∧
    (∀ a b, pathSegments q = [a, b] →
      parsePath path = .ok ⟨⟨a, b⟩, [], [], none⟩) ∧
    (∀ a b c, pathSegments q = [a, b, c] →
      parsePath path = .ok ⟨⟨a, b⟩, [], c, none⟩) ∧
    (∀ a b c d, pathSegments q = [a, b, c, d] →
      (c = relationshipsRequest → parsePath path = .ok ⟨⟨a, b⟩, d, [], none⟩) ∧
      (c ≠ relationshipsRequest →
        parsePath path = .error (.pathFormat relationshipsRequest c))) := by
  refine ⟨?_, ?_, ?_, ?_⟩
  · intro a hseg
    simp [parsePath, hdec, hne, hseg]
  · intro a b hseg
    simp [parsePath, hdec, hne, hseg]
  · intro a b c hseg
    simp [parsePath, hdec, hne, hseg]
  · intro a b c d hseg
    constructor
    · intro hc
      simp [parsePath, hdec, hne, hseg, hc]
    · intro hc
      simp [parsePath, hdec, hne, hseg, hc]

/-- C2 witness: the table applied to the concrete two-segment path. -/
theorem parsePath_segment_table_witness :
    parsePath (s2l "/articles/1") = .ok ⟨⟨s2l "articles", s2l "1"⟩, [], [], none⟩ :=
  (parsePath_segment_table (s2l "/articles/1") (s2l "/articles/1") (by rfl)
    (by decide)).2.1 (s2l "articles") (s2l "1") (by rfl)

theorem parsePath_error_iff (path : Str) :
    (∃ e, parsePath path = .error e) ↔ pathHardFailure path := by
  cases hu : pathUnescape path with
  | none =>
    constructor
    · intro _
      exact Or.inl hu
    · intro _
      exact ⟨.pathUnescapeErr, by simp [parsePath, hu]⟩
  | some q =>
    by_cases hdeg : removeExtraDelimiters q = [] ∨ removeExtraDelimiters q = ['/']
    · constructor
      · intro _
        exact Or.inr (Or.inl ⟨q, hu, hdeg⟩)
      · intro _
        exact ⟨.emptyPath, by simp [parsePath, hu, hdeg]⟩
    · have hsegne := goSplit_ne_nil '/' (stripLead (removeExtraDelimiters q))
      rcases hseg : pathSegments q with _ | ⟨a, _ | ⟨b, _ | ⟨c, _ | ⟨d, _ | ⟨e5, t⟩⟩⟩⟩⟩
      · exact absurd hseg hsegne
      · simp [parsePath, pathHardFailure, degeneratePath, hu, hdeg, hseg]
      · simp [parsePath, pathHardFailure, degeneratePath, hu, hdeg, hseg]
      · simp [parsePath, pathHardFailure, degeneratePath, hu, hdeg, hseg]
      · by_cases hc : c = relationshipsRequest
        · simp [parsePath, pathHardFailure, degeneratePath, hu, hdeg, hseg, hc]
        · simp [parsePath, pathHardFailure, degeneratePath, hu, hdeg, hseg, hc]
      · simp [parsePath, pathHardFailure, degeneratePath, hu, hdeg, hseg]

theorem parseQuery_error_iff (q : Str) :
    (∃ e, ParseQuery q = .error e) ↔ queryUnescape q = none := by
  cases hu : queryUnescape q with
  | none => simp [ParseQuery, ParseValues, hu]
  | some g => simp [ParseQuery, ParseValues, hu]

/-- C3: ParseRequest fails exactly on the four hard failures: a decode
failure of path or query, a degenerate path, a path with more than four
segments, or a four-segment path whose third segment is not the
relationships literal; the five builders are total functions and never
contribute an error. -/
theorem parseRequest_error_iff (params : Str) :
    (∃ e, ParseRequest params = .error e) ↔ hardFailure params := by
  unfold hardFailure
  cases hp : parsePath (split params '?' true).1 with
  | error e =>
    have hfail : pathHardFailure (split params '?' true).1 :=
      (parsePath_error_iff _).mp ⟨e, hp⟩
    simp [ParseRequest, hp, hfail]
  | ok r =>
    have hnofail : ¬pathHardFailure (split params '?' true).1 := by
      intro hf
      rcases (parsePath_error_iff _).mpr hf with ⟨e, he⟩
      rw [hp] at he
      exact absurd he (by simp)
    cases hq : ParseQuery (split params '?' true).2 with
    | error e =>
      have hqn : queryUnescape (split params '?' true).2 = none :=
        (parseQuery_error_iff _).mp ⟨e, hq⟩
      simp [ParseRequest, hp, hq, hnofail, hqn]
    | ok qq =>
      have hqn : ¬queryUnescape (split params '?' true).2 = none := by
        intro hn
        rcases (parseQuery_error_iff _).mpr hn with ⟨e, he⟩
        rw [hq] at he
        exact absurd he (by simp)
      simp [ParseRequest, hp, hq, hnofail, hqn]

end Theorems

end Qparser
